import Mathlib

/-!
# Verification of the TokenizerApp dynamic-vocabulary tokenizer

Shallow embedding of the `Tokenizer` class from `src/App.jsx`.

Modelling conventions:
* JavaScript objects used as string-keyed maps (`tokenToId`, `idToToken`,
  `specialTokenIds`, the frequency table) are modelled as association lists
  in insertion order; property lookup is first-match lookup (`lookupA`).
  Keys of a JS object are unique, so the lists that model real objects have
  no duplicate keys.  `idToToken` is keyed by JS integer-like string keys;
  we model those keys as `Nat` (non-canonical numeric strings such as
  `"007"`, which JS would treat as plain string keys distinct from `"7"`,
  are outside the modelled input domain).
* `Object.entries` enumeration order puts integer-like keys first in
  ascending numeric order, then the remaining keys in insertion order;
  `entriesOrder` models this.
* `Array.prototype.sort` is stable (ES2019); the comparator
  `(a, b) => b[1] - a[1]` therefore yields the unique stable descending
  ordering by count, modelled with `List.insertionSort` over `freqGe`.
* Strings are treated at the ASCII level: the regex classes `\w`
  (`[A-Za-z0-9_]`) and the punctuation class are exact; `\s` and
  `toLowerCase` are modelled on their ASCII behaviour, which agrees with JS
  on all inputs used here.
* `JSON.parse` is a host primitive, not repository code; `load` therefore
  takes the parse outcome as an explicit argument (`Option Parsed`, with
  `none` for a parse that throws).  `Parsed.pnull` is a parse result on
  which JS property access itself throws (i.e. `null`); `Parsed.psnap`
  covers every other parsed value via its three optional fields, where
  `none` stands for a missing (or falsy) field, which the source replaces
  by an empty object.
* Mutation of `this` is modelled by state passing: an operation returns the
  new `Tok`.  An `Except.error` result models a thrown exception; since the
  only throwing paths in `load` throw before any assignment to `this`, a
  thrown exception always leaves the caller's state unchanged, which the
  pure model reflects by the caller keeping the old `Tok`.
-/

namespace TokApp

/-- First-match association-list lookup, modelling JS object property read. -/
def lookupA {α β : Type} [DecidableEq α] : List (α × β) → α → Option β
  | [], _ => none
  | (k, v) :: rest, key => if k = key then some v else lookupA rest key

/-- The `specialTokens` configuration object.  `Object.assign` over the
defaults guarantees the four fields `PAD`, `UNK`, `BOS`, `EOS` are always
present; `extra` holds any additional keys appended by the override object,
in its order. -/
structure Specials where
  PAD : String
  UNK : String
  BOS : String
  EOS : String
  extra : List (String × String)
deriving DecidableEq

/-- `Object.keys`/`Object.entries` view of a `Specials` object: the four
default keys in declaration order, then the extra keys. -/
def Specials.entriesList (sp : Specials) : List (String × String) :=
  [("PAD", sp.PAD), ("UNK", sp.UNK), ("BOS", sp.BOS), ("EOS", sp.EOS)] ++ sp.extra

/-- `Object.values(this.specialTokens)`. -/
def Specials.valuesList (sp : Specials) : List String :=
  sp.entriesList.map Prod.snd

/-- The `Tokenizer` instance state: immutable configuration
(`lowercase`, `learnOnEncode`, `specialTokens`) plus the mutable
vocabulary (`tokenToId`, `idToToken`, `vocabSize`, `specialTokenIds`). -/
structure Tok where
  lowercase : Bool
  learnOnEncode : Bool
  specialTokens : Specials
  tokenToId : List (String × Nat)
  idToToken : List (Nat × String)
  vocabSize : Nat
  specialTokenIds : List (String × Nat)
deriving DecidableEq

/-- `_addToken(token)`: return the existing id, or append the token with the
next id (`this.vocabSize++`) to both maps. -/
def _addToken (st : Tok) (token : String) : Tok × Nat :=
  match lookupA st.tokenToId token with
  | some id => (st, id)
  | none =>
      let id := st.vocabSize
      ({ st with
          vocabSize := id + 1
          tokenToId := st.tokenToId ++ [(token, id)]
          idToToken := st.idToToken ++ [(id, token)] }, id)

/-- One iteration of the `resetVocab` loop:
`this.specialTokenIds[key] = this._addToken(tok)`. -/
def addSpecial (acc : Tok) (kv : String × String) : Tok :=
  let r := _addToken acc kv.2
  { r.1 with specialTokenIds := r.1.specialTokenIds ++ [(kv.1, r.2)] }

/-- `resetVocab()`: clear both maps and `specialTokenIds`, set size to 0,
then insert the special tokens in key order, recording their ids. -/
def resetVocab (st : Tok) : Tok :=
  st.specialTokens.entriesList.foldl addSpecial
    { st with tokenToId := [], idToToken := [], vocabSize := 0, specialTokenIds := [] }

/-- Default surface strings of the constructor. -/
def defaultSpecialsCfg : Specials :=
  { PAD := "[PAD]", UNK := "[UNK]", BOS := "[BOS]", EOS := "[EOS]", extra := [] }

/-- `Object.assign({PAD:…,UNK:…,BOS:…,EOS:…}, specialTokens || {})`:
the four default keys keep their position (surface possibly overridden),
new keys are appended in override order. -/
def mergeSpecials (ov : List (String × String)) : Specials :=
  { PAD := (lookupA ov "PAD").getD "[PAD]"
    UNK := (lookupA ov "UNK").getD "[UNK]"
    BOS := (lookupA ov "BOS").getD "[BOS]"
    EOS := (lookupA ov "EOS").getD "[EOS]"
    extra := ov.filter (fun p => !(["PAD", "UNK", "BOS", "EOS"].contains p.1)) }

/-- `new Tokenizer(options)`: store the configuration and run `resetVocab`. -/
def mkTokenizer (lowercase learnOnEncode : Bool) (ov : List (String × String)) : Tok :=
  resetVocab
    { lowercase := lowercase
      learnOnEncode := learnOnEncode
      specialTokens := mergeSpecials ov
      tokenToId := []
      idToToken := []
      vocabSize := 0
      specialTokenIds := [] }

/-- The regex class `\w`: ASCII letters, digits, underscore. -/
def isWordChar (c : Char) : Bool :=
  c.isAlpha || c.isDigit || c = '_'

/-- The apostrophe character (code point 39). -/
def apostropheChar : Char := Char.ofNat 39

/-- A character that may occur inside a `[\w']+` token. -/
def isTokChar (c : Char) : Bool :=
  isWordChar c || c = apostropheChar

/-- The regex class `\s` on ASCII: space, tab, LF, VT, FF, CR. -/
def isSpaceChar (c : Char) : Bool :=
  c = ' ' || c = '\t' || c = '\n' || c = '\x0b' || c = '\x0c' || c = '\r'

/-- `text.match(/[\w']+|[^\s\w]/g) || []` scanned left to right: a maximal
run of word characters and apostrophes is one token, any other
non-whitespace character is its own single-character token, whitespace
separates.  The `fuel` argument (structural recursion so that the kernel
can evaluate the definition) bounds the remaining input length; `tokenize`
supplies the input length, which the scan never exhausts, so the `0` case
with a nonempty input is unreachable. -/
def tokenizeFuel : Nat → List Char → List String
  | _, [] => []
  | 0, _ :: _ => []
  | fuel + 1, c :: rest =>
      if isSpaceChar c then tokenizeFuel fuel rest
      else if isTokChar c then
        String.mk (c :: rest.takeWhile isTokChar)
          :: tokenizeFuel fuel (rest.dropWhile isTokChar)
      else
        String.mk [c] :: tokenizeFuel fuel rest

/-- Tokenization rule applied to a string. -/
def tokenize (s : String) : List String :=
  tokenizeFuel s.data.length s.data

/-- `toLowerCase` on one ASCII character. -/
def lowerChar (c : Char) : Char :=
  if c.isUpper then Char.ofNat (c.toNat + 32) else c

/-- `text.toLowerCase()` (ASCII behaviour, which is what all inputs here
exercise). -/
def lowerStr (s : String) : String :=
  String.mk (s.data.map lowerChar)

/-- The shared preamble of `train` and `encode`: optional case folding
followed by segmentation. -/
def segmented (st : Tok) (text : String) : List String :=
  tokenize (if st.lowercase then lowerStr text else text)

/-- One step of building the frequency table:
`freq[t] = (freq[t] || 0) + 1` (in-place update keeps key order). -/
def bump : List (String × Nat) → String → List (String × Nat)
  | [], t => [(t, 1)]
  | (k, v) :: rest, t =>
      if k = t then (k, v + 1) :: rest else (k, v) :: bump rest t

/-- The frequency object built by the training loop; keys appear in
first-occurrence order. -/
def buildFreq (tokens : List String) : List (String × Nat) :=
  tokens.foldl bump []

/-- Numeric value of a decimal digit string. -/
def digitsToNat (l : List Char) : Nat :=
  l.foldl (fun acc c => acc * 10 + (c.toNat - 48)) 0

/-- Whether a JS object key is an integer-like (array-index) key: the
canonical decimal form (no leading zero unless the key is `"0"`) of some
`n < 2^32 - 1`. -/
def isArrayIndexKey (s : String) : Bool :=
  match s.data with
  | [] => false
  | [c] => c.isDigit
  | c :: rest =>
      c.isDigit && c != '0' && rest.all Char.isDigit
        && digitsToNat (c :: rest) < 4294967295

/-- Numeric value of an integer-like key. -/
def keyVal (s : String) : Nat :=
  digitsToNat s.data

/-- Ascending order on integer-like keys, used by `Object.entries`. -/
def keyLe (a b : String × Nat) : Prop :=
  keyVal a.1 ≤ keyVal b.1

instance : DecidableRel keyLe := fun a b => Nat.decLe (keyVal a.1) (keyVal b.1)

instance : IsTotal (String × Nat) keyLe :=
  ⟨fun a b => Nat.le_total (keyVal a.1) (keyVal b.1)⟩

instance : IsTrans (String × Nat) keyLe :=
  ⟨fun _ _ _ h h' => Nat.le_trans h h'⟩

/-- `Object.entries(freq)`: integer-like keys first in ascending numeric
order, then the remaining keys in insertion order. -/
def entriesOrder (l : List (String × Nat)) : List (String × Nat) :=
  List.insertionSort keyLe (l.filter (fun p => isArrayIndexKey p.1))
    ++ l.filter (fun p => !(isArrayIndexKey p.1))

/-- The order imposed by the comparator `(a, b) => b[1] - a[1]`:
descending count. -/
def freqGe (a b : String × Nat) : Prop :=
  b.2 ≤ a.2

instance : DecidableRel freqGe := fun a b => Nat.decLe b.2 a.2

instance : IsTotal (String × Nat) freqGe :=
  ⟨fun a b => Nat.le_total b.2 a.2⟩

instance : IsTrans (String × Nat) freqGe :=
  ⟨fun _ _ _ h h' => Nat.le_trans h' h⟩

/-- `entries.sort((a, b) => b[1] - a[1])`: the stable descending sort.
`List.insertionSort` is stable, so it computes the same list as the
(stable, ES2019) JS sort. -/
def sortEntries (l : List (String × Nat)) : List (String × Nat) :=
  List.insertionSort freqGe l

/-- Truthiness test of `maxVocab && this.vocabSize - reserved >= maxVocab`:
`null` and `0` are falsy, so they disable the bound. -/
def mvActive (maxVocab : Option Int) (vocabSize reserved : Nat) : Bool :=
  match maxVocab with
  | none => false
  | some n => (n != 0) && decide ((vocabSize : Int) - (reserved : Int) ≥ n)

/-- The `for (const [token] of entries)` loop of `train`: stop (break) once
the bound is active, otherwise add each token not already present. -/
def trainLoop (maxVocab : Option Int) (reserved : Nat) : Tok → List String → Tok
  | st, [] => st
  | st, t :: rest =>
      if mvActive maxVocab st.vocabSize reserved then st
      else
        let st2 := if (lookupA st.tokenToId t).isNone then (_addToken st t).1 else st
        trainLoop maxVocab reserved st2 rest

/-- The sorted frequency entries walked by `train`:
`Object.entries(freq).sort((a, b) => b[1] - a[1])`. -/
def trainEntries (st : Tok) (text : String) : List (String × Nat) :=
  sortEntries (entriesOrder (buildFreq (segmented st text)))

/-- `train(text, {maxVocab, append})`. -/
def train (st0 : Tok) (text : String) (maxVocab : Option Int) (append : Bool) : Tok :=
  let st := if append then st0 else resetVocab st0
  if text = "" then st
  else
    trainLoop maxVocab st.specialTokens.entriesList.length st
      ((trainEntries st text).map Prod.fst)

/-- The id-emitting loop of `encode`.  An emitted id is `none` exactly when
the source would push JS `undefined` (an absent `specialTokenIds` entry). -/
def encodeTokens (st : Tok) : List String → Tok × List (Option Nat)
  | [] => (st, [])
  | t :: rest =>
      match lookupA st.tokenToId t with
      | some id =>
          let r := encodeTokens st rest
          (r.1, some id :: r.2)
      | none =>
          if st.learnOnEncode then
            let a := _addToken st t
            let r := encodeTokens a.1 rest
            (r.1, some a.2 :: r.2)
          else
            let r := encodeTokens st rest
            (r.1, lookupA st.specialTokenIds "UNK" :: r.2)

/-- `encode(text, {addBOS, addEOS})`: returns the possibly grown state and
the id sequence. -/
def encode (st : Tok) (text : String) (addBOS addEOS : Bool) : Tok × List (Option Nat) :=
  if text = "" then (st, [])
  else
    let r := encodeTokens st (segmented st text)
    (r.1,
      (if addBOS then [lookupA st.specialTokenIds "BOS"] else [])
        ++ r.2
        ++ (if addEOS then [lookupA st.specialTokenIds "EOS"] else []))

/-- The punctuation class of the de-spacing regex `/\s([.,!?;:])/g`. -/
def isPunctChar (c : Char) : Bool :=
  c = '.' || c = ',' || c = '!' || c = '?' || c = ';' || c = ':'

/-- Global replace of `/\s([.,!?;:])/g` by `"$1"`: scan left to right,
drop a whitespace character immediately followed by one of the punctuation
characters, and continue after the match. -/
def despaceChars : List Char → List Char
  | [] => []
  | [c] => [c]
  | c1 :: c2 :: rest =>
      if isSpaceChar c1 && isPunctChar c2 then c2 :: despaceChars rest
      else c1 :: despaceChars (c2 :: rest)

/-- De-spacing pass on a string. -/
def despaceStr (s : String) : String :=
  String.mk (despaceChars s.data)

/-- `tokens.join(" ")`: concatenate with single-space separators. -/
def joinSpace : List String → List Char
  | [] => []
  | [t] => t.data
  | t :: u :: rest => t.data ++ (' ' :: joinSpace (u :: rest))

/-- `decode(ids, {skipSpecial})`: map ids through `idToToken` with UNK
fallback, optionally drop special surfaces, join with spaces, de-space. -/
def decode (st : Tok) (ids : List Nat) (skipSpecial : Bool) : String :=
  let tokens := ids.map (fun id => (lookupA st.idToToken id).getD st.specialTokens.UNK)
  let kept :=
    if skipSpecial then tokens.filter (fun t => !(st.specialTokens.valuesList.contains t))
    else tokens
  despaceStr (String.mk (joinSpace kept))

/-- The snapshot shape produced by `getVocab()` (export). -/
structure Snapshot where
  tokenToId : List (String × Nat)
  idToToken : List (Nat × String)
  specialTokenIds : List (String × Nat)
deriving DecidableEq

/-- `getVocab()`: an independent copy of the three maps. -/
def getVocab (st : Tok) : Snapshot :=
  { tokenToId := st.tokenToId
    idToToken := st.idToToken
    specialTokenIds := st.specialTokenIds }

/-- Outcome of `JSON.parse` on a non-empty string, as far as `load`
inspects it.  `pnull` is a parsed `null` (property access throws);
`psnap` is any other value, with `none` for a missing or falsy field. -/
inductive Parsed where
  | pnull : Parsed
  | psnap (tokenToId : Option (List (String × Nat)))
      (idToToken : Option (List (Nat × String)))
      (specialTokenIds : Option (List (String × Nat))) : Parsed
deriving DecidableEq

/-- `load(jsonStr)`: empty string is an early return; a parse failure or a
parsed `null` throws `"Invalid JSON for vocab"` before any assignment;
any other parsed value replaces the three maps (missing or falsy fields
become empty objects) and recomputes `vocabSize` as the key count of the
new `idToToken`. -/
def load (st : Tok) (jsonStr : String) (parsed : Option Parsed) : Except String Tok :=
  if jsonStr = "" then Except.ok st
  else
    match parsed with
    | none => Except.error "Invalid JSON for vocab"
    | some Parsed.pnull => Except.error "Invalid JSON for vocab"
    | some (Parsed.psnap t i s) =>
        Except.ok
          { st with
              tokenToId := t.getD []
              idToToken := i.getD []
              specialTokenIds := s.getD []
              vocabSize := (i.getD []).length }

/-- Number of vocabulary entries whose token is not one of the special
surface strings. -/
def nonSpecialCount (st : Tok) : Nat :=
  (st.tokenToId.filter (fun p => !(st.specialTokens.valuesList.contains p.1))).length

/-- Well-formedness of the vocabulary maps: equal sizes matching
`vocabSize`, duplicate-free keys, mutually inverse lookups, and all ids
below `vocabSize`. -/
structure WF (st : Tok) : Prop where
  lenT : st.tokenToId.length = st.vocabSize
  lenI : st.idToToken.length = st.vocabSize
  nodT : (st.tokenToId.map Prod.fst).Nodup
  nodI : (st.idToToken.map Prod.fst).Nodup
  fwd : ∀ t id, lookupA st.tokenToId t = some id → lookupA st.idToToken id = some t
  bwd : ∀ id t, lookupA st.idToToken id = some t → lookupA st.tokenToId t = some id
  bndT : ∀ p ∈ st.tokenToId, p.2 < st.vocabSize
  bndI : ∀ p ∈ st.idToToken, p.1 < st.vocabSize

/-- Well-formedness of an imported snapshot's two vocabulary maps, with
the snapshot's size being the key count of its `idToToken`. -/
structure SnapWF (m : List (String × Nat)) (im : List (Nat × String)) : Prop where
  len : m.length = im.length
  nodT : (m.map Prod.fst).Nodup
  nodI : (im.map Prod.fst).Nodup
  fwd : ∀ t id, lookupA m t = some id → lookupA im id = some t
  bwd : ∀ id t, lookupA im id = some t → lookupA m t = some id
  bndT : ∀ p ∈ m, p.2 < im.length
  bndI : ∀ p ∈ im, p.1 < im.length

/-- States reachable from a freshly constructed tokenizer by the mutating
operations (`decode`, `getVocab` and `save` do not change state), where
`load` is applied to snapshots that are themselves well formed. -/
inductive Reach : Tok → Prop where
  | init (lowercase learnOnEncode : Bool) (ov : List (String × String)) :
      Reach (mkTokenizer lowercase learnOnEncode ov)
  | reset {st : Tok} : Reach st → Reach (resetVocab st)
  | trainStep {st : Tok} (text : String) (mv : Option Int) (app : Bool) :
      Reach st → Reach (train st text mv app)
  | encodeStep {st : Tok} (text : String) (bos eos : Bool) :
      Reach st → Reach ((encode st text bos eos).1)
  | loadStep {st st' : Tok} (s : String) (m : List (String × Nat))
      (im : List (Nat × String)) (sp : List (String × Nat)) :
      Reach st → SnapWF m im →
      load st s (some (Parsed.psnap (some m) (some im) (some sp))) = Except.ok st' →
      Reach st'

/-! ## Association-list lookup lemmas -/

theorem lookupA_nil {α β : Type} [DecidableEq α] (k : α) :
    lookupA ([] : List (α × β)) k = none := rfl

theorem lookupA_cons {α β : Type} [DecidableEq α] (a : α) (b : β)
    (l : List (α × β)) (k : α) :
    lookupA ((a, b) :: l) k = if a = k then some b else lookupA l k := rfl

theorem lookupA_append_some {α β : Type} [DecidableEq α] {l₁ : List (α × β)}
    {k : α} {v : β} (l₂ : List (α × β)) (h : lookupA l₁ k = some v) :
    lookupA (l₁ ++ l₂) k = some v := by
  induction l₁ with
  | nil => simp [lookupA] at h
  | cons p rest ih =>
      obtain ⟨a, b⟩ := p
      by_cases hk : a = k
      · subst hk
        rw [lookupA, if_pos rfl] at h
        rw [List.cons_append, lookupA, if_pos rfl]
        exact h
      · rw [lookupA, if_neg hk] at h
        rw [List.cons_append, lookupA, if_neg hk]
        exact ih h

theorem lookupA_append_none {α β : Type} [DecidableEq α] {l₁ : List (α × β)}
    {k : α} (l₂ : List (α × β)) (h : lookupA l₁ k = none) :
    lookupA (l₁ ++ l₂) k = lookupA l₂ k := by
  induction l₁ with
  | nil => simp
  | cons p rest ih =>
      obtain ⟨a, b⟩ := p
      by_cases hk : a = k
      · rw [lookupA, if_pos hk] at h
        exact absurd h (by simp)
      · rw [lookupA, if_neg hk] at h
        rw [List.cons_append, lookupA, if_neg hk]
        exact ih h

theorem lookupA_eq_none_iff {α β : Type} [DecidableEq α] {l : List (α × β)}
    {k : α} : lookupA l k = none ↔ k ∉ l.map Prod.fst := by
  induction l with
  | nil => simp [lookupA]
  | cons p rest ih =>
      obtain ⟨a, b⟩ := p
      by_cases hk : a = k
      · subst hk
        simp [lookupA]
      · simp [lookupA, hk, ih, Ne.symm hk]

theorem lookupA_mem {α β : Type} [DecidableEq α] {l : List (α × β)}
    {k : α} {v : β} (h : lookupA l k = some v) : (k, v) ∈ l := by
  induction l with
  | nil => simp [lookupA] at h
  | cons p rest ih =>
      obtain ⟨a, b⟩ := p
      by_cases hk : a = k
      · subst hk
        rw [lookupA, if_pos rfl, Option.some_inj] at h
        subst h
        exact List.mem_cons_self _ _
      · rw [lookupA, if_neg hk] at h
        exact List.mem_cons_of_mem _ (ih h)

theorem lookupA_of_mem_nodup {α β : Type} [DecidableEq α] {l : List (α × β)}
    {k : α} {v : β} (hn : (l.map Prod.fst).Nodup) (h : (k, v) ∈ l) :
    lookupA l k = some v := by
  induction l with
  | nil => simp at h
  | cons p rest ih =>
      obtain ⟨a, b⟩ := p
      simp only [List.map_cons, List.nodup_cons] at hn
      rcases List.mem_cons.mp h with h | h
      · injection h with h1 h2
        subst h1; subst h2
        rw [lookupA, if_pos rfl]
      · have hak : a ≠ k := by
          rintro rfl
          exact hn.1 (List.mem_map.mpr ⟨(a, v), h, rfl⟩)
        rw [lookupA, if_neg hak]
        exact ih hn.2 h

/-! ## Claims -/

/-- C10: calling `load` with an empty (or absent, via the default `""`)
string returns without error and leaves `tokenToId`, `idToToken`,
`specialTokenIds` and `vocabSize` unchanged — a silent no-op rather than
an `InvalidVocabulary` report. -/
theorem claim10_load_empty_noop (st : Tok) (parsed : Option Parsed) :
    load st "" parsed = Except.ok st := rfl

/-- C5: on a freshly constructed default tokenizer,
`encode("Hello world", {addBOS: true, addEOS: true})` returns
`[2, 4, 5, 3]` ("hello" and "world" learned as ids 4 and 5), and a
subsequent `decode([2, 4, 5, 3], {skipSpecial: true})` returns
`"hello world"`. -/
theorem claim5_hello_world_roundtrip :
    (encode (mkTokenizer true true []) "Hello world" true true).2
        = [some 2, some 4, some 5, some 3]
    ∧ decode (encode (mkTokenizer true true []) "Hello world" true true).1
        [2, 4, 5, 3] true = "hello world" := by
  constructor
  · decide
  · decide

/-- C1 counterexample: the structurally invalid (but parsable) snapshot
`"\x7b\x7d"` (an empty JSON object, missing all three required fields) is
accepted by `load` without any error, and it overwrites the vocabulary:
the exported snapshot after the call (all three maps empty) differs from
the exported snapshot before the call (the four special tokens). -/
theorem claim1_counterexample :
    (load (mkTokenizer true true []) "\x7b\x7d"
        (some (Parsed.psnap none none none))).toOption.map getVocab
      = some { tokenToId := [], idToToken := [], specialTokenIds := [] }
    ∧ getVocab (mkTokenizer true true [])
      ≠ { tokenToId := [], idToToken := [], specialTokenIds := [] } := by
  constructor
  · decide
  · decide

/-- C1 (amended): `load` fails with the `"Invalid JSON for vocab"` error —
leaving the previous vocabulary state untouched, since the failing paths
throw before any assignment — exactly for unparsable input and for input
parsing to `null`; any other parsable input, however structurally invalid,
is accepted, with missing or falsy fields silently replaced by empty maps
(so `export_vocab` after such a call need not match its pre-call value). -/
theorem claim1_amended (st : Tok) (s : String) (p : Option Parsed)
    (hs : s ≠ "") (hp : p = none ∨ p = some Parsed.pnull) :
    load st s p = Except.error "Invalid JSON for vocab" := by
  rcases hp with h | h <;> subst h <;> simp [load, hs]

/-- Witness for C1 (amended): a concrete unparsable string is rejected. -/
theorem claim1_amended_witness :
    load (mkTokenizer true true []) "not json" none
      = Except.error "Invalid JSON for vocab" :=
  claim1_amended (mkTokenizer true true []) "not json" none (by decide) (Or.inl rfl)

/-- C3 counterexample: for the whitespace-only (hence zero-token) text
`" "`, `encode` with `addBOS` and `addEOS` set does not return the empty
id sequence — it returns the BOS and EOS ids. -/
theorem claim3_counterexample :
    (encode (mkTokenizer true true []) " " true true).2 ≠ [] := by
  decide

/-- C3 (amended): for the empty string, `encode` returns `[]` with no BOS
or EOS ids appended even when the flags are set; for nonempty text that
segments to zero tokens (whitespace-only), `encode` emits no token ids but
does honor the flags, returning exactly the BOS/EOS ids they request (and
the empty sequence only when both flags are unset).  Neither case mutates
the state. -/
theorem claim3_amended (st : Tok) (addBOS addEOS : Bool) (text : String)
    (ht : text ≠ "") (h0 : segmented st text = []) :
    encode st "" addBOS addEOS = (st, [])
    ∧ encode st text addBOS addEOS =
        (st, (if addBOS then [lookupA st.specialTokenIds "BOS"] else [])
          ++ (if addEOS then [lookupA st.specialTokenIds "EOS"] else [])) := by
  constructor
  · simp [encode]
  · simp [encode, ht, h0, encodeTokens]

/-- Witness for C3 (amended): the whitespace-only text `" "` on a fresh
default tokenizer, with both flags set. -/
theorem claim3_amended_witness :
    encode (mkTokenizer true true []) "" true true = (mkTokenizer true true [], [])
    ∧ encode (mkTokenizer true true []) " " true true =
        (mkTokenizer true true [],
          (if true then [lookupA (mkTokenizer true true []).specialTokenIds "BOS"] else [])
            ++ (if true then [lookupA (mkTokenizer true true []).specialTokenIds "EOS"] else [])) :=
  claim3_amended (mkTokenizer true true []) true true " " (by decide) (by decide)

/-- C7: `decode` is total and tolerates unknown ids.  On any state whose
`UNK` surface is the default `"[UNK]"`: if id `999999` is unassigned,
`decode([999999], {skipSpecial: false})` returns `"[UNK]"`; and, in
general, an id list all of whose ids are unassigned decodes (without
failing) with every id contributing the UNK surface string. -/
theorem claim7_unknown_id_tolerance (st : Tok) (ids : List Nat)
    (h999 : lookupA st.idToToken 999999 = none)
    (hu : st.specialTokens.UNK = "[UNK]") :
    decode st [999999] false = "[UNK]"
    ∧ ((∀ i ∈ ids, lookupA st.idToToken i = none) →
        decode st ids false
          = despaceStr (String.mk (joinSpace (ids.map (fun _ => "[UNK]"))))) := by
  constructor
  · simp only [decode, List.map_cons, List.map_nil, h999, Option.getD_none, hu,
      if_neg (Bool.false_ne_true)]
    decide
  · intro h
    simp only [decode, if_neg (Bool.false_ne_true)]
    have : ids.map (fun id => (lookupA st.idToToken id).getD st.specialTokens.UNK)
        = ids.map (fun _ => "[UNK]") := by
      apply List.map_congr_left
      intro i hi
      rw [h i hi, Option.getD_none, hu]
    rw [this]

/-- Witness for C7: a fresh default tokenizer has no entry for id 999999. -/
theorem claim7_witness :
    decode (mkTokenizer true true []) [999999] false = "[UNK]"
    ∧ ((∀ i ∈ [999999, 1000000], lookupA (mkTokenizer true true []).idToToken i = none) →
        decode (mkTokenizer true true []) [999999, 1000000] false
          = despaceStr (String.mk (joinSpace
              (([999999, 1000000] : List Nat).map (fun _ => "[UNK]"))))) :=
  claim7_unknown_id_tolerance (mkTokenizer true true []) [999999, 1000000]
    (by decide) (by decide)

/-! ## `_addToken` and `trainLoop` structure lemmas -/

theorem addToken_of_absent {st : Tok} {t : String}
    (h : lookupA st.tokenToId t = none) :
    _addToken st t
      = ({ st with
            vocabSize := st.vocabSize + 1
            tokenToId := st.tokenToId ++ [(t, st.vocabSize)]
            idToToken := st.idToToken ++ [(st.vocabSize, t)] }, st.vocabSize) := by
  simp [_addToken, h]

theorem addToken_of_present {st : Tok} {t : String} {id : Nat}
    (h : lookupA st.tokenToId t = some id) :
    _addToken st t = (st, id) := by
  simp [_addToken, h]

/-- Every token added by `trainLoop` is appended to `tokenToId`, and the
appended tokens form an in-order sub-walk of the processed entry list. -/
theorem trainLoop_tokenToId (mv : Option Int) (res : Nat) :
    ∀ (ts : List String) (st : Tok),
      ∃ adds : List (String × Nat),
        (trainLoop mv res st ts).tokenToId = st.tokenToId ++ adds
        ∧ List.Sublist (adds.map Prod.fst) ts := by
  intro ts
  induction ts with
  | nil =>
      intro st
      exact ⟨[], by simp [trainLoop], by simp⟩
  | cons t rest ih =>
      intro st
      rw [trainLoop]
      by_cases hb : mvActive mv st.vocabSize res
      · exact ⟨[], by simp [hb], List.nil_sublist _⟩
      · rw [if_neg hb]
        cases hl : (lookupA st.tokenToId t).isNone with
        | false =>
            obtain ⟨adds, h1, h2⟩ := ih st
            exact ⟨adds, by simpa [hl] using h1, h2.cons t⟩
        | true =>
            have hnone : lookupA st.tokenToId t = none := by
              simpa [Option.isNone_iff_eq_none] using hl
            obtain ⟨adds, h1, h2⟩ := ih (_addToken st t).1
            refine ⟨(t, st.vocabSize) :: adds, ?_, ?_⟩
            · rw [if_pos (by simp [hl])]
              rw [h1, addToken_of_absent hnone]
              simp
            · exact List.Sublist.cons₂ t h2

/-- C9: with `append = true`, `train` only adds entries: every
`(token, id)` pair present in `tokenToId` before the call is still found,
with the same id, after the call, for every text and bound — so a token's
id never changes. -/
theorem claim9_train_append_monotone (st : Tok) (text : String)
    (mv : Option Int) (t : String) (id : Nat)
    (h : lookupA st.tokenToId t = some id) :
    lookupA (train st text mv true).tokenToId t = some id := by
  by_cases ht : text = ""
  · simpa [train, ht] using h
  · obtain ⟨adds, h1, _⟩ :=
      trainLoop_tokenToId mv (Specials.entriesList st.specialTokens).length
        ((trainEntries st text).map Prod.fst) st
    simp [train, ht]
    rw [h1]
    exact lookupA_append_some _ h

/-- Witness for C9: after training `"hello"` from scratch, `"hello"` has
id 4, and a further appending train call on different text keeps it. -/
theorem claim9_witness :
    lookupA (train (train (mkTokenizer true true []) "hello" none false)
        "world and more words" none true).tokenToId "hello" = some 4 :=
  claim9_train_append_monotone (train (mkTokenizer true true []) "hello" none false)
    "world and more words" none "hello" 4 (by decide)

/-! ## Frequency table and sort lemmas -/

theorem bump_lookup (t : String) :
    ∀ (l : List (String × Nat)) (k : String),
      lookupA (bump l t) k
        = if k = t then some ((lookupA l t).getD 0 + 1) else lookupA l k := by
  intro l
  induction l with
  | nil =>
      intro k
      by_cases hk : k = t
      · subst hk
        simp [bump, lookupA]
      · have htk : ¬t = k := fun h => hk h.symm
        simp [bump, lookupA, hk, htk]
  | cons p rest ih =>
      intro k
      obtain ⟨a, b⟩ := p
      by_cases hat : a = t
      · subst hat
        by_cases hk : k = a
        · subst hk
          simp [bump, lookupA]
        · have hak : ¬a = k := fun h => hk h.symm
          simp [bump, lookupA, hk, hak]
      · by_cases hak : a = k
        · subst hak
          simp [bump, lookupA, hat]
        · simp only [bump, if_neg hat, lookupA, if_neg hak]
          rw [ih k]

theorem bump_keys (t : String) :
    ∀ l : List (String × Nat),
      (bump l t).map Prod.fst
        = if t ∈ l.map Prod.fst then l.map Prod.fst else l.map Prod.fst ++ [t] := by
  intro l
  induction l with
  | nil => simp [bump]
  | cons p rest ih =>
      obtain ⟨a, b⟩ := p
      by_cases hat : a = t
      · subst hat
        simp [bump]
      · simp only [bump, if_neg hat, List.map_cons]
        rw [ih]
        by_cases hm : t ∈ rest.map Prod.fst
        · simp [hm, Ne.symm hat]
        · simp [hm, Ne.symm hat]

theorem bump_keys_nodup {l : List (String × Nat)} (t : String)
    (h : (l.map Prod.fst).Nodup) : ((bump l t).map Prod.fst).Nodup := by
  rw [bump_keys]
  by_cases hm : t ∈ l.map Prod.fst
  · rw [if_pos hm]
    exact h
  · rw [if_neg hm]
    refine List.Nodup.append h (List.nodup_singleton t) ?_
    intro a ha hta
    rw [List.mem_singleton] at hta
    subst hta
    exact hm ha

theorem foldl_bump_lookup :
    ∀ (ts : List String) (acc : List (String × Nat)) (k : String),
      lookupA (ts.foldl bump acc) k
        = if k ∈ ts then some ((lookupA acc k).getD 0 + ts.count k)
          else lookupA acc k := by
  intro ts
  induction ts with
  | nil => simp
  | cons t rest ih =>
      intro acc k
      rw [List.foldl_cons, ih (bump acc t) k, bump_lookup]
      by_cases hk : k = t
      · subst hk
        by_cases hm : k ∈ rest
        · simp only [eq_self_iff_true, ite_true, if_pos hm,
            if_pos (List.mem_cons_self k rest),
            Option.getD_some, List.count_cons_self, Option.some_inj]
          omega
        · simp only [eq_self_iff_true, ite_true, if_neg hm,
            if_pos (List.mem_cons_self k rest),
            Option.getD_some, List.count_cons_self, List.count_eq_zero.mpr hm,
            Option.some_inj]
      · have hcnt : (t :: rest).count k = rest.count k := by
          have htk : ¬t = k := fun h => hk h.symm
          simp [List.count_cons, hk, htk]
        rw [if_neg hk]
        by_cases hm : k ∈ rest
        · rw [if_pos hm, if_pos (List.mem_cons_of_mem t hm), hcnt]
        · rw [if_neg hm, if_neg (by simp [List.mem_cons, hk, hm])]

theorem buildFreq_keys_nodup (ts : List String) :
    ((buildFreq ts).map Prod.fst).Nodup := by
  have h : ∀ (us : List String) (acc : List (String × Nat)),
      (acc.map Prod.fst).Nodup → ((us.foldl bump acc).map Prod.fst).Nodup := by
    intro us
    induction us with
    | nil => intro acc h; simpa using h
    | cons u rest ih =>
        intro acc h
        rw [List.foldl_cons]
        exact ih _ (bump_keys_nodup u h)
  exact h ts [] (by simp)

theorem mem_buildFreq {ts : List String} {p : String × Nat}
    (h : p ∈ buildFreq ts) : p.1 ∈ ts ∧ p.2 = ts.count p.1 := by
  have hl : lookupA (buildFreq ts) p.1 = some p.2 :=
    lookupA_of_mem_nodup (buildFreq_keys_nodup ts) (by simpa using h)
  rw [buildFreq, foldl_bump_lookup] at hl
  by_cases hm : p.1 ∈ ts
  · rw [if_pos hm] at hl
    simp only [lookupA_nil, Option.getD_none, Nat.zero_add, Option.some_inj] at hl
    exact ⟨hm, hl.symm⟩
  · rw [if_neg hm, lookupA_nil] at hl
    exact absurd hl (by simp)

theorem mem_entriesOrder {l : List (String × Nat)} {p : String × Nat}
    (h : p ∈ entriesOrder l) : p ∈ l := by
  rcases List.mem_append.mp h with h | h
  · exact (List.mem_filter.mp ((List.mem_insertionSort keyLe).mp h)).1
  · exact (List.mem_filter.mp h).1

theorem mem_sortEntries {l : List (String × Nat)} {p : String × Nat} :
    p ∈ sortEntries l ↔ p ∈ l :=
  List.mem_insertionSort freqGe

theorem sortEntries_sorted (l : List (String × Nat)) :
    (sortEntries l).Pairwise freqGe :=
  List.sorted_insertionSort freqGe l

theorem mem_trainEntries {st : Tok} {text : String} {p : String × Nat}
    (h : p ∈ trainEntries st text) :
    p.1 ∈ segmented st text ∧ p.2 = (segmented st text).count p.1 :=
  mem_buildFreq (mem_entriesOrder (mem_sortEntries.mp h))

/-- C8: the tokens a single `train` call adds are appended in an order
that is an in-order sub-walk of the stable descending frequency sort of
this call's frequency entries: most frequent first, ties resolved by the
stability of the sort over the constructed entry order. -/
theorem claim8_train_frequency_order (st0 : Tok) (text : String)
    (mv : Option Int) (app : Bool) :
    ∃ adds : List (String × Nat),
      (train st0 text mv app).tokenToId
          = (if app then st0 else resetVocab st0).tokenToId ++ adds
      ∧ List.Sublist (adds.map Prod.fst)
          ((trainEntries (if app then st0 else resetVocab st0) text).map Prod.fst)
      ∧ (trainEntries (if app then st0 else resetVocab st0) text).Pairwise freqGe
      ∧ ∀ p ∈ trainEntries (if app then st0 else resetVocab st0) text,
          p.2 = (segmented (if app then st0 else resetVocab st0) text).count p.1 := by
  by_cases ht : text = ""
  · refine ⟨[], ?_, ?_, sortEntries_sorted _, ?_⟩
    · rw [train, if_pos ht]
      simp
    · exact List.nil_sublist _
    · intro p hp
      exact (mem_trainEntries hp).2
  · obtain ⟨adds, h1, h2⟩ :=
      trainLoop_tokenToId mv
        (Specials.entriesList (if app then st0 else resetVocab st0).specialTokens).length
        ((trainEntries (if app then st0 else resetVocab st0) text).map Prod.fst)
        (if app then st0 else resetVocab st0)
    refine ⟨adds, ?_, h2, sortEntries_sorted _, ?_⟩
    · rw [train, if_neg ht]
      exact h1
    · intro p hp
      exact (mem_trainEntries hp).2

/-! ## Tokenization shape and the `maxVocab` bound -/

/-- Every token produced by the scan is a single character or a nonempty
run of word/apostrophe characters. -/
theorem tokenizeFuel_shape :
    ∀ (fuel : Nat) (l : List Char) (t : String), t ∈ tokenizeFuel fuel l →
      t.data.length = 1 ∨ (∀ x ∈ t.data, isTokChar x = true) := by
  intro fuel
  induction fuel with
  | zero =>
      intro l t ht
      cases l <;> simp [tokenizeFuel] at ht
  | succ fuel ih =>
      intro l t ht
      cases l with
      | nil => simp [tokenizeFuel] at ht
      | cons c rest =>
          rw [tokenizeFuel] at ht
          by_cases hs : isSpaceChar c
          · rw [if_pos hs] at ht
            exact ih rest t ht
          · rw [if_neg hs] at ht
            by_cases hk : isTokChar c
            · rw [if_pos hk] at ht
              rcases List.mem_cons.mp ht with h | h
              · subst h
                right
                intro x hx
                rcases List.mem_cons.mp hx with h | h
                · subst h
                  exact hk
                · exact List.mem_takeWhile_imp h
              · exact ih _ t h
            · rw [if_neg hk] at ht
              rcases List.mem_cons.mp ht with h | h
              · subst h
                left
                rfl
              · exact ih rest t h

/-- No token of the tokenization rule can equal a string that contains a
bracket and is longer than one character — in particular none of the four
default special surfaces. -/
theorem tokenize_ne_bracket {s t : String} (ht : t ∈ tokenize s)
    (u : String) (hu : '[' ∈ u.data) (hlen : u.data.length ≠ 1) : t ≠ u := by
  intro he
  subst he
  rcases tokenizeFuel_shape s.data.length s.data t ht with h1 | h2
  · exact hlen h1
  · have hbr := h2 '[' hu
    have : isTokChar '[' = false := by decide
    rw [this] at hbr
    exact Bool.false_ne_true hbr

/-- A segmented token is never one of the default special surfaces. -/
theorem segmented_not_special {st : Tok} {text t : String}
    (ht : t ∈ segmented st text) :
    defaultSpecialsCfg.valuesList.contains t = false := by
  rw [segmented, tokenize] at ht
  have h1 : t ≠ "[PAD]" := tokenize_ne_bracket ht "[PAD]" (by decide) (by decide)
  have h2 : t ≠ "[UNK]" := tokenize_ne_bracket ht "[UNK]" (by decide) (by decide)
  have h3 : t ≠ "[BOS]" := tokenize_ne_bracket ht "[BOS]" (by decide) (by decide)
  have h4 : t ≠ "[EOS]" := tokenize_ne_bracket ht "[EOS]" (by decide) (by decide)
  simp [defaultSpecialsCfg, Specials.valuesList, Specials.entriesList, h1, h2, h3, h4]

/-- `resetVocab` on a default-configured tokenizer yields the four special
entries with ids 0–3. -/
theorem resetVocab_default (st : Tok) (hsp : st.specialTokens = defaultSpecialsCfg) :
    resetVocab st =
      { lowercase := st.lowercase
        learnOnEncode := st.learnOnEncode
        specialTokens := st.specialTokens
        tokenToId := [("[PAD]", 0), ("[UNK]", 1), ("[BOS]", 2), ("[EOS]", 3)]
        idToToken := [(0, "[PAD]"), (1, "[UNK]"), (2, "[BOS]"), (3, "[EOS]")]
        vocabSize := 4
        specialTokenIds := [("PAD", 0), ("UNK", 1), ("BOS", 2), ("EOS", 3)] } := by
  rw [resetVocab, hsp]
  rfl

/-- The invariant of the bounded training loop: with an active bound
`n ≥ 1` and reserved count 4, the non-special entry count tracks
`vocabSize - 4` and never exceeds `n`. -/
theorem trainLoop_bound (n : Int) (hn : 1 ≤ n) :
    ∀ (ts : List String) (st : Tok),
      st.specialTokens = defaultSpecialsCfg →
      (∀ t ∈ ts, defaultSpecialsCfg.valuesList.contains t = false) →
      st.vocabSize = 4 + nonSpecialCount st →
      (nonSpecialCount st : Int) ≤ n →
      (trainLoop (some n) 4 st ts).vocabSize
          = 4 + nonSpecialCount (trainLoop (some n) 4 st ts)
        ∧ (nonSpecialCount (trainLoop (some n) 4 st ts) : Int) ≤ n := by
  intro ts
  induction ts with
  | nil =>
      intro st hsp hts hsz hle
      rw [trainLoop]
      exact ⟨hsz, hle⟩
  | cons t rest ih =>
      intro st hsp hts hsz hle
      rw [trainLoop]
      by_cases hb : mvActive (some n) st.vocabSize 4
      · rw [if_pos hb]
        exact ⟨hsz, hle⟩
      · rw [if_neg hb]
        cases hl : (lookupA st.tokenToId t).isNone with
        | false =>
            rw [if_neg Bool.false_ne_true]
            exact ih st hsp (fun u hu => hts u (List.mem_cons_of_mem t hu)) hsz hle
        | true =>
            have hnone : lookupA st.tokenToId t = none := by
              simpa [Option.isNone_iff_eq_none] using hl
            have hcont : defaultSpecialsCfg.valuesList.contains t = false :=
              hts t (List.mem_cons_self t rest)
            rw [if_pos (rfl : (true : Bool) = true)]
            simp only [addToken_of_absent hnone]
            have hnsc : nonSpecialCount
                { st with
                    vocabSize := st.vocabSize + 1
                    tokenToId := st.tokenToId ++ [(t, st.vocabSize)]
                    idToToken := st.idToToken ++ [(st.vocabSize, t)] }
                = nonSpecialCount st + 1 := by
              have hmem : t ∉ defaultSpecialsCfg.valuesList := by
                simpa using hcont
              simp [nonSpecialCount, List.filter_append, hsp, hmem]
            have hlt : (st.vocabSize : Int) - 4 < n := by
              by_contra hge
              apply hb
              simp only [mvActive, Bool.and_eq_true, bne_iff_ne, ne_eq,
                decide_eq_true_eq]
              constructor
              · omega
              · omega
            refine ih _ hsp (fun u hu => hts u (List.mem_cons_of_mem t hu)) ?_ ?_
            · rw [hnsc]
              show st.vocabSize + 1 = 4 + (nonSpecialCount st + 1)
              omega
            · rw [hnsc]
              push_cast
              omega

/-- C2 counterexample: with `max_vocab = 0`, the bound is falsy and thus
disabled — training `"a"` on a fresh default tokenizer adds one
non-special entry, violating "at most 0 non-special entries". -/
theorem claim2_counterexample :
    nonSpecialCount (train (mkTokenizer true true []) "a" (some 0) false) = 1
    ∧ ¬(nonSpecialCount (train (mkTokenizer true true []) "a" (some 0) false) ≤ 0) := by
  constructor
  · decide
  · decide

/-- C2 (amended): for every text and every truthy integer bound `N ≥ 1`,
after `train(text, {max_vocab: N})` (default `append = false`) the
vocabulary of a default-configured tokenizer contains at most `N`
non-special entries; `N = 0` is falsy in `maxVocab && …`, so it disables
the bound entirely rather than limiting the vocabulary to 0 entries. -/
theorem claim2_amended (st : Tok) (text : String) (n : Nat) (hn : 1 ≤ n)
    (hsp : st.specialTokens = defaultSpecialsCfg) :
    nonSpecialCount (train st text (some ((n : Nat) : Int)) false) ≤ n := by
  have hn' : (1 : Int) ≤ (n : Int) := by exact_mod_cast hn
  have hnsc0 : nonSpecialCount (resetVocab st) = 0 := by
    simp only [nonSpecialCount, resetVocab_default st hsp, hsp]
    rfl
  by_cases ht : text = ""
  · have htr : train st text (some ((n : Nat) : Int)) false = resetVocab st := by
      simp [train, ht]
    rw [htr, hnsc0]
    exact Nat.zero_le n
  · have hres : (resetVocab st).specialTokens.entriesList.length = 4 := by
      rw [resetVocab_default st hsp]
      show st.specialTokens.entriesList.length = 4
      rw [hsp]
      rfl
    have htr : train st text (some ((n : Nat) : Int)) false
        = trainLoop (some ((n : Nat) : Int)) 4 (resetVocab st)
            ((trainEntries (resetVocab st) text).map Prod.fst) := by
      simp only [train, ht, if_false, ite_false, Bool.false_eq_true, hres]
    have hsp' : (resetVocab st).specialTokens = defaultSpecialsCfg := by
      rw [resetVocab_default st hsp]
      exact hsp
    have hts : ∀ u ∈ (trainEntries (resetVocab st) text).map Prod.fst,
        defaultSpecialsCfg.valuesList.contains u = false := by
      intro u hu
      obtain ⟨p, hp, he⟩ := List.mem_map.mp hu
      subst he
      exact segmented_not_special (mem_trainEntries hp).1
    have hsz0 : (resetVocab st).vocabSize = 4 + nonSpecialCount (resetVocab st) := by
      rw [hnsc0, resetVocab_default st hsp]
    have hle0 : (nonSpecialCount (resetVocab st) : Int) ≤ (n : Int) := by
      rw [hnsc0]
      omega
    obtain ⟨_, hle'⟩ :=
      trainLoop_bound ((n : Nat) : Int) hn'
        ((trainEntries (resetVocab st) text).map Prod.fst) (resetVocab st)
        hsp' hts hsz0 hle0
    rw [htr]
    exact_mod_cast hle'

/-- Witness for C2 (amended): training three distinct tokens with bound 2
on a fresh default tokenizer keeps at most 2 non-special entries. -/
theorem claim2_witness :
    nonSpecialCount (train (mkTokenizer true true []) "a b c"
        (some (((2 : Nat) : Nat) : Int)) false) ≤ 2 :=
  claim2_amended (mkTokenizer true true []) "a b c" 2 (by decide) (by rfl)

/-! ## Learn-on-encode -/

theorem card_insert_eq_one_add_card_erase {S : Finset String} (t : String) :
    (insert t S).card = 1 + (S.erase t).card := by
  by_cases htS : t ∈ S
  · rw [Finset.insert_eq_self.mpr htS]
    have h := Finset.card_erase_add_one htS
    omega
  · rw [Finset.card_insert_of_not_mem htS, Finset.erase_eq_of_not_mem htS]
    omega

/-- The encode loop with learning enabled: the vocabulary grows by exactly
the number of distinct tokens that were absent before, already-present
entries keep their ids, and afterwards every processed token is present. -/
theorem encodeTokens_learn :
    ∀ (ts : List String) (st : Tok), st.learnOnEncode = true →
      (encodeTokens st ts).1.vocabSize
          = st.vocabSize
            + ((ts.filter (fun u => (lookupA st.tokenToId u).isNone)).toFinset.card)
      ∧ (∀ u v, lookupA st.tokenToId u = some v →
          lookupA (encodeTokens st ts).1.tokenToId u = some v)
      ∧ (∀ u ∈ ts, (lookupA (encodeTokens st ts).1.tokenToId u).isSome) := by
  intro ts
  induction ts with
  | nil =>
      intro st _
      refine ⟨by simp [encodeTokens], ?_, by simp⟩
      intro u v h
      simpa [encodeTokens] using h
  | cons t rest ih =>
      intro st hle
      cases hl : lookupA st.tokenToId t with
      | some id =>
          obtain ⟨h1, h2, h3⟩ := ih st hle
          have hfe : (t :: rest).filter (fun u => (lookupA st.tokenToId u).isNone)
              = rest.filter (fun u => (lookupA st.tokenToId u).isNone) := by
            simp [List.filter_cons, hl]
          refine ⟨?_, ?_, ?_⟩
          · simp only [encodeTokens, hl]
            rw [hfe]
            exact h1
          · intro u v h
            simp only [encodeTokens, hl]
            exact h2 u v h
          · intro u hu
            simp only [encodeTokens, hl]
            rcases List.mem_cons.mp hu with h | h
            · subst h
              rw [h2 u id hl]
              rfl
            · exact h3 u h
      | none =>
          obtain ⟨h1, h2, h3⟩ :=
            ih (_addToken st t).1 (by rw [addToken_of_absent hl]; exact hle)
          have hX : (_addToken st t).1.tokenToId
              = st.tokenToId ++ [(t, st.vocabSize)] := by
            rw [addToken_of_absent hl]
          have hXv : (_addToken st t).1.vocabSize = st.vocabSize + 1 := by
            rw [addToken_of_absent hl]
          have hstep1 : (encodeTokens st (t :: rest)).1
              = (encodeTokens (_addToken st t).1 rest).1 := by
            simp only [encodeTokens, hl, hle, eq_self_iff_true, ite_true]
          have hlookup : ∀ u, lookupA (_addToken st t).1.tokenToId u
              = if lookupA st.tokenToId u = none
                then (if t = u then some st.vocabSize else none)
                else lookupA st.tokenToId u := by
            intro u
            rw [hX]
            cases hlu : lookupA st.tokenToId u with
            | some v => simp [lookupA_append_some _ hlu]
            | none => simp [lookupA_append_none _ hlu, lookupA]
          have hfilt : rest.filter
                (fun u => (lookupA (_addToken st t).1.tokenToId u).isNone)
              = (rest.filter (fun u => (lookupA st.tokenToId u).isNone)).filter
                  (fun u => !(u == t)) := by
            rw [List.filter_filter]
            apply List.filter_congr
            intro u _
            rw [hlookup u]
            cases hlu : lookupA st.tokenToId u with
            | some v => simp
            | none =>
                by_cases htu : t = u
                · subst htu
                  simp
                · have hut : ¬u = t := fun h => htu h.symm
                  simp [htu, hut]
          have herase : ((rest.filter
                  (fun u => (lookupA st.tokenToId u).isNone)).filter
                (fun u => !(u == t))).toFinset
              = (rest.filter
                  (fun u => (lookupA st.tokenToId u).isNone)).toFinset.erase t := by
            ext x
            simp only [List.mem_toFinset, List.mem_filter, Finset.mem_erase,
              Bool.not_eq_true', beq_eq_false_iff_ne, ne_eq]
            tauto
          have hcard : ((t :: rest).filter
                (fun u => (lookupA st.tokenToId u).isNone)).toFinset.card
              = 1 + ((rest.filter
                  (fun u => (lookupA (_addToken st t).1.tokenToId u).isNone)).toFinset.card) := by
            rw [hfilt, herase, List.filter_cons, if_pos (by simp [hl]),
              List.toFinset_cons, card_insert_eq_one_add_card_erase t]
          refine ⟨?_, ?_, ?_⟩
          · rw [hstep1, h1, hXv, hcard]
            omega
          · intro u v h
            rw [hstep1]
            refine h2 u v ?_
            rw [hlookup u, h]
            simp
          · intro u hu
            rcases List.mem_cons.mp hu with h | h
            · subst h
              have hm : lookupA (_addToken st u).1.tokenToId u = some st.vocabSize := by
                rw [hlookup u, hl]
                simp
              rw [hstep1, h2 u st.vocabSize hm]
              rfl
            · rw [hstep1]
              exact h3 u h

/-- `segmented` of the empty string is the empty token list. -/
theorem segmented_empty (st : Tok) : segmented st "" = [] := by
  rw [segmented]
  cases hc : st.lowercase <;> simp [hc] <;> rfl

/-- C6: with `learn_on_encode` enabled, `encode` grows `vocabSize` by
exactly the number of distinct segmented tokens that were absent from the
vocabulary before the call, and afterwards every segmented token of the
text is present in the snapshot returned by `getVocab` (export). -/
theorem claim6_learn_on_encode (st : Tok) (text : String) (bos eos : Bool)
    (hle : st.learnOnEncode = true) :
    (encode st text bos eos).1.vocabSize
        = st.vocabSize
          + ((segmented st text).filter
              (fun u => (lookupA st.tokenToId u).isNone)).toFinset.card
    ∧ ((segmented st text).all
        (fun u => (lookupA (getVocab (encode st text bos eos).1).tokenToId u).isSome)) := by
  by_cases ht : text = ""
  · subst ht
    rw [segmented_empty]
    constructor
    · simp [encode]
    · simp
  · obtain ⟨h1, h2, h3⟩ := encodeTokens_learn (segmented st text) st hle
    constructor
    · simp only [encode, if_neg ht]
      exact h1
    · rw [List.all_eq_true]
      intro u hu
      simp only [encode, if_neg ht, getVocab]
      exact h3 u hu

/-- Witness for C6: encoding `"Hello world"` on a fresh default tokenizer
adds the two distinct new tokens and both appear in the export. -/
theorem claim6_witness :
    (encode (mkTokenizer true true []) "Hello world" false false).1.vocabSize
        = (mkTokenizer true true []).vocabSize
          + ((segmented (mkTokenizer true true []) "Hello world").filter
              (fun u => (lookupA (mkTokenizer true true []).tokenToId u).isNone)).toFinset.card
    ∧ ((segmented (mkTokenizer true true []) "Hello world").all
        (fun u => (lookupA (getVocab
            (encode (mkTokenizer true true []) "Hello world" false false).1).tokenToId
          u).isSome)) :=
  claim6_learn_on_encode (mkTokenizer true true []) "Hello world" false false (by decide)

/-! ## Well-formedness preservation and reachable states -/

theorem addToken_wf {st : Tok} (t : String) (h : WF st) : WF (_addToken st t).1 := by
  cases hl : lookupA st.tokenToId t with
  | some id =>
      rw [addToken_of_present hl]
      exact h
  | none =>
      have hvs : lookupA st.idToToken st.vocabSize = none := by
        rw [lookupA_eq_none_iff]
        intro hmem
        obtain ⟨p, hp, he⟩ := List.mem_map.mp hmem
        have hb := h.bndI p hp
        omega
      have htk : t ∉ st.tokenToId.map Prod.fst := lookupA_eq_none_iff.mp hl
      have h1 : (st.tokenToId ++ [(t, st.vocabSize)]).length = st.vocabSize + 1 := by
        simp [h.lenT]
      have h2 : (st.idToToken ++ [(st.vocabSize, t)]).length = st.vocabSize + 1 := by
        simp [h.lenI]
      have h3 : ((st.tokenToId ++ [(t, st.vocabSize)]).map Prod.fst).Nodup := by
        rw [List.map_append]
        refine List.Nodup.append h.nodT (by simp) ?_
        intro a ha hta
        simp only [List.map_cons, List.map_nil, List.mem_singleton] at hta
        subst hta
        exact htk ha
      have h4 : ((st.idToToken ++ [(st.vocabSize, t)]).map Prod.fst).Nodup := by
        rw [List.map_append]
        refine List.Nodup.append h.nodI (by simp) ?_
        intro a ha hva
        simp only [List.map_cons, List.map_nil, List.mem_singleton] at hva
        subst hva
        obtain ⟨p, hp, he⟩ := List.mem_map.mp ha
        have hb := h.bndI p hp
        omega
      have h5 : ∀ u i, lookupA (st.tokenToId ++ [(t, st.vocabSize)]) u = some i →
          lookupA (st.idToToken ++ [(st.vocabSize, t)]) i = some u := by
        intro u i hu
        cases hlu : lookupA st.tokenToId u with
        | some v =>
            rw [lookupA_append_some _ hlu, Option.some_inj] at hu
            subst hu
            exact lookupA_append_some _ (h.fwd u v hlu)
        | none =>
            rw [lookupA_append_none _ hlu, lookupA] at hu
            by_cases htu : t = u
            · rw [if_pos htu, Option.some_inj] at hu
              subst htu
              subst hu
              rw [lookupA_append_none _ hvs, lookupA, if_pos rfl]
            · rw [if_neg htu, lookupA] at hu
              exact absurd hu (by simp)
      have h6 : ∀ i u, lookupA (st.idToToken ++ [(st.vocabSize, t)]) i = some u →
          lookupA (st.tokenToId ++ [(t, st.vocabSize)]) u = some i := by
        intro i u hu
        cases hli : lookupA st.idToToken i with
        | some w =>
            rw [lookupA_append_some _ hli, Option.some_inj] at hu
            subst hu
            exact lookupA_append_some _ (h.bwd i w hli)
        | none =>
            rw [lookupA_append_none _ hli, lookupA] at hu
            by_cases hvi : st.vocabSize = i
            · rw [if_pos hvi, Option.some_inj] at hu
              subst hu
              subst hvi
              rw [lookupA_append_none _ hl, lookupA, if_pos rfl]
            · rw [if_neg hvi, lookupA] at hu
              exact absurd hu (by simp)
      have h7 : ∀ p ∈ st.tokenToId ++ [(t, st.vocabSize)], p.2 < st.vocabSize + 1 := by
        intro p hp
        rcases List.mem_append.mp hp with hp | hp
        · have := h.bndT p hp
          omega
        · rw [List.mem_singleton] at hp
          subst hp
          omega
      have h8 : ∀ p ∈ st.idToToken ++ [(st.vocabSize, t)], p.1 < st.vocabSize + 1 := by
        intro p hp
        rcases List.mem_append.mp hp with hp | hp
        · have := h.bndI p hp
          omega
        · rw [List.mem_singleton] at hp
          subst hp
          omega
      rw [addToken_of_absent hl]
      exact ⟨h1, h2, h3, h4, h5, h6, h7, h8⟩

theorem wf_specialTokenIds {st : Tok} (l : List (String × Nat)) (h : WF st) :
    WF { st with specialTokenIds := l } := by
  obtain ⟨h1, h2, h3, h4, h5, h6, h7, h8⟩ := h
  exact ⟨h1, h2, h3, h4, h5, h6, h7, h8⟩

theorem wf_cleared (st : Tok) :
    WF { st with
        tokenToId := []
        idToToken := []
        vocabSize := 0
        specialTokenIds := [] } := by
  refine ⟨rfl, rfl, ?_, ?_, ?_, ?_, ?_, ?_⟩ <;> simp [lookupA]

theorem addSpecial_wf {acc : Tok} (kv : String × String) (h : WF acc) :
    WF (addSpecial acc kv) :=
  wf_specialTokenIds _ (addToken_wf kv.2 h)

theorem foldl_addSpecial_wf :
    ∀ (kvs : List (String × String)) (acc : Tok), WF acc →
      WF (kvs.foldl addSpecial acc) := by
  intro kvs
  induction kvs with
  | nil =>
      intro acc h
      simpa using h
  | cons kv rest ih =>
      intro acc h
      rw [List.foldl_cons]
      exact ih _ (addSpecial_wf kv h)

theorem resetVocab_wf (st : Tok) : WF (resetVocab st) :=
  foldl_addSpecial_wf _ _ (wf_cleared st)

theorem trainLoop_wf (mv : Option Int) (res : Nat) :
    ∀ (ts : List String) (st : Tok), WF st → WF (trainLoop mv res st ts) := by
  intro ts
  induction ts with
  | nil =>
      intro st h
      rw [trainLoop]
      exact h
  | cons t rest ih =>
      intro st h
      rw [trainLoop]
      by_cases hb : mvActive mv st.vocabSize res
      · rw [if_pos hb]
        exact h
      · rw [if_neg hb]
        cases hl : (lookupA st.tokenToId t).isNone with
        | false =>
            rw [if_neg Bool.false_ne_true]
            exact ih st h
        | true =>
            rw [if_pos (rfl : (true : Bool) = true)]
            exact ih _ (addToken_wf t h)

theorem train_wf (st : Tok) (text : String) (mv : Option Int) (app : Bool)
    (h : WF st) : WF (train st text mv app) := by
  have hbase : WF (if app then st else resetVocab st) := by
    split
    · exact h
    · exact resetVocab_wf st
  by_cases ht : text = ""
  · rw [train, if_pos ht]
    exact hbase
  · rw [train, if_neg ht]
    exact trainLoop_wf _ _ _ _ hbase

theorem encodeTokens_wf :
    ∀ (ts : List String) (st : Tok), WF st → WF (encodeTokens st ts).1 := by
  intro ts
  induction ts with
  | nil =>
      intro st h
      simpa [encodeTokens] using h
  | cons t rest ih =>
      intro st h
      cases hl : lookupA st.tokenToId t with
      | some id =>
          simp only [encodeTokens, hl]
          exact ih st h
      | none =>
          simp only [encodeTokens, hl]
          cases hle : st.learnOnEncode with
          | false =>
              rw [if_neg Bool.false_ne_true]
              exact ih st h
          | true =>
              rw [if_pos (rfl : (true : Bool) = true)]
              exact ih _ (addToken_wf t h)

theorem encode_wf (st : Tok) (text : String) (bos eos : Bool) (h : WF st) :
    WF (encode st text bos eos).1 := by
  by_cases ht : text = ""
  · rw [encode, if_pos ht]
    exact h
  · simp only [encode, if_neg ht]
    exact encodeTokens_wf _ st h

/-- Every reachable state is well formed. -/
theorem reach_wf {st : Tok} (h : Reach st) : WF st := by
  induction h with
  | init lc le ov => exact resetVocab_wf _
  | reset _ ih => exact resetVocab_wf _
  | trainStep text mv app _ ih => exact train_wf _ text mv app ih
  | encodeStep text bos eos _ ih => exact encode_wf _ text bos eos ih
  | loadStep s m im sp _ hsnap hload ih =>
      by_cases hs : s = ""
      · rw [load, if_pos hs, Except.ok.injEq] at hload
        subst hload
        exact ih
      · simp only [load, if_neg hs, Option.getD_some, Except.ok.injEq] at hload
        subst hload
        exact ⟨hsnap.len, rfl, hsnap.nodT, hsnap.nodI, hsnap.fwd, hsnap.bwd,
          hsnap.bndT, hsnap.bndI⟩

/-- C4 counterexample: `load` installs an imported snapshot verbatim, so a
state reachable by construct-then-import of a structurally well-shaped but
inconsistent snapshot (`tokenToId` maps `"a"` to 0 while `idToToken` is
empty) violates the bijection: `tokenToId["a"] = 0` has no inverse entry
and the two maps have different entry counts. -/
theorem claim4_counterexample :
    (load (mkTokenizer true true []) "x"
        (some (Parsed.psnap (some [("a", 0)]) (some []) (some [])))).toOption.map
      (fun st => (lookupA st.tokenToId "a", lookupA st.idToToken 0,
        st.tokenToId.length, st.idToToken.length))
      = some (some 0, none, 1, 0) := by
  decide

/-- C4 (amended): in every state reachable by any sequence of reset,
train, encode, decode and export — and of imports whose snapshots are
themselves well formed (mutually inverse maps with ids below the snapshot
size) — `tokenToId` and `idToToken` are exact inverses: every
`(token, id)` in `tokenToId` has `idToToken[id] = token`, and both maps
have the same number of entries, equal to `vocabSize`.  Import of an
inconsistent snapshot is installed verbatim and can break the invariant,
so the restriction on imported snapshots is necessary. -/
theorem claim4_amended (st : Tok) (h : Reach st) :
    (∀ t id, lookupA st.tokenToId t = some id → lookupA st.idToToken id = some t)
    ∧ st.tokenToId.length = st.idToToken.length
    ∧ st.idToToken.length = st.vocabSize := by
  obtain ⟨h1, h2, _, _, h5, _, _, _⟩ := reach_wf h
  refine ⟨h5, ?_, h2⟩
  omega

/-- Witness for C4 (amended): the freshly constructed default tokenizer is
reachable and satisfies the invariant. -/
theorem claim4_witness :
    (∀ t id, lookupA (mkTokenizer true true []).tokenToId t = some id →
        lookupA (mkTokenizer true true []).idToToken id = some t)
    ∧ (mkTokenizer true true []).tokenToId.length
        = (mkTokenizer true true []).idToToken.length
    ∧ (mkTokenizer true true []).idToToken.length
        = (mkTokenizer true true []).vocabSize :=
  claim4_amended (mkTokenizer true true []) (Reach.init true true [])

end TokApp
